import Mathlib

/-
Shallow embedding of the trynannou particle-trail program (src/main.rs).

Colors are modelled exactly over the rationals: the nannou Hsla type stores
hue in turns, and palette normalizes a hue to the half-open interval
[-1/2, 1/2) of turns when it is read back through to_radians.  The Rust
float remainder operator is a truncated remainder (sign of the dividend),
modelled by rustRem.  Geometry (positions, velocities) is modelled exactly
over the reals, with Real.sqrt playing the role of f32 sqrt.
-/

namespace Trynannou

/-- Constant ORBITAL_RADIUS from main.rs. -/
def ORBITAL_RADIUS : ℝ := 1000

/-- Constant PARTICLES from main.rs. -/
def PARTICLES : ℕ := 16

/-- Constant HISTORY from main.rs. -/
def HISTORY : ℕ := 200

/-- Constant VARY_VELOCITY from main.rs. -/
def VARY_VELOCITY : ℝ := 100

/-- Function gm from main.rs: ORBITAL_RADIUS * 57.0. -/
def gm : ℝ := ORBITAL_RADIUS * 57

/-- The nannou Hsla color: hue is stored in turns, the other channels in [0,1]. -/
structure Hsla where
  hue : ℚ
  saturation : ℚ
  lightness : ℚ
  alpha : ℚ
deriving DecidableEq

instance : Inhabited Hsla := ⟨⟨0, 0, 0, 0⟩⟩

/-- The nannou Hsl color used for the background and the guide circle. -/
structure Hsl where
  hue : ℚ
  saturation : ℚ
  lightness : ℚ
deriving DecidableEq

/-- Truncation of a rational toward zero (the f32 trunc used by the Rust
float remainder).  Int division in Lean rounds toward zero, matching Rust. -/
def rtrunc (x : ℚ) : ℤ := x.num.tdiv (x.den : ℤ)

/-- The Rust float remainder operator x % y: a truncated remainder whose sign
follows the dividend, x - y * trunc (x / y). -/
def rustRem (x y : ℚ) : ℚ := x - y * (rtrunc (x / y) : ℚ)

/-- Palette hue normalization expressed in turns: the stored hue is read back
as deg - 360 * floor ((deg + 180) / 360), i.e. x - floor (x + 1/2) turns,
landing in [-1/2, 1/2).  This is what c.hue.to_radians() / TAU computes. -/
def normTurns (x : ℚ) : ℚ := x - (Int.floor (x + 1/2) : ℚ)

/-- The magnitude constant 0.008 used by tweak_color. -/
def MAG : ℚ := 8 / 1000

/-- Function tweak_color from main.rs, with the three random draws made
explicit parameters: hue becomes (storedHueTurns + rh) % 1.0 under the Rust
remainder, saturation and lightness are perturbed and clamped to [0,1],
alpha passes through. -/
def tweak_color (c : Hsla) (rh rs rl : ℚ) : Hsla :=
  { hue := rustRem (normTurns c.hue + rh) 1
  , saturation := min 1 (max 0 (c.saturation + rs))
  , lightness := min 1 (max 0 (c.lightness + rl))
  , alpha := c.alpha }

/-- Length of a 2D vector, as glam computes it: sqrt of the dot product. -/
noncomputable def vlen (v : ℝ × ℝ) : ℝ := Real.sqrt (v.1 * v.1 + v.2 * v.2)

/-- The glam normalize: the vector scaled by the reciprocal of its length. -/
noncomputable def vnormalize (v : ℝ × ℝ) : ℝ × ℝ := (v.1 / vlen v, v.2 / vlen v)

/-- The Particle struct from main.rs. -/
structure Particle where
  pos : ℝ × ℝ
  vel : ℝ × ℝ

instance : Inhabited Particle := ⟨⟨(0, 0), (0, 0)⟩⟩

/-- Particle::update from main.rs: advance the position by vel * dt, then add
to the velocity the gravity vector -normalize(pos) + force * dt, where the
scalar force * dt is broadcast component-wise (glam implements Vec2 + f32
component-wise) and force = 1.0 / (pos.length() * 2.0). -/
noncomputable def Particle.update (p : Particle) (dt : ℝ) : Particle :=
  let pos := p.pos + dt • p.vel
  let force := 1 / (vlen pos * 2)
  let gravity := -vnormalize pos + ((force * dt, force * dt) : ℝ × ℝ)
  { pos := pos, vel := p.vel + gravity }

/-- Modelled from the spec wording of the integration step, for comparison
with Particle.update: advance position += velocity * deltaSeconds; compute
forceMag = 1 / (2 * |position|); compute gravity = -normalize(position)
+ forceMag * deltaSeconds with the scalar added component-wise; update
velocity += gravity. -/
noncomputable def specStep (p : Particle) (dt : ℝ) : Particle :=
  let position := p.pos + dt • p.vel
  let forceMag := 1 / (2 * vlen position)
  let gravity : ℝ × ℝ :=
    (-(vnormalize position).1 + forceMag * dt, -(vnormalize position).2 + forceMag * dt)
  { pos := position, vel := p.vel + gravity }

/-- Function point_on_circle from main.rs, applied to one accepted sample of
the rejection loop: given draws x and y with x*x + y*y nonzero, return
pt2(x, y) divided by the square root of the observed squared length. -/
noncomputable def point_on_circle (x y : ℝ) : ℝ × ℝ :=
  (x / Real.sqrt (x * x + y * y), y / Real.sqrt (x * x + y * y))

/-- One particle of the initialization loop in model(), with the random draws
made explicit: the accepted rejection sample (x, y), the 50/50 sign draw, and
the uniform velocity jitter. -/
noncomputable def mkParticle (x y : ℝ) (sgn : Bool) (jit : ℝ) : Particle :=
  let pos := ORBITAL_RADIUS • point_on_circle x y
  let speed0 := Real.sqrt gm
  let speed1 := if sgn then speed0 else -speed0
  let speed := speed1 + jit
  { pos := pos, vel := speed • vnormalize (pos.2, -pos.1) }

/-- The nannou map_range helper: linear interpolation. -/
def map_range (val inMin inMax outMin outMax : ℚ) : ℚ :=
  outMin + (val - inMin) * (outMax - outMin) / (inMax - inMin)

/-- The Record struct from main.rs: a position and color snapshot. -/
structure Record where
  pos : ℝ × ℝ
  color : Hsla

instance : Inhabited Record := ⟨⟨(0, 0), default⟩⟩

/-- The Model struct from main.rs. -/
structure Model where
  particles : List Particle
  colors : List Hsla
  background : Hsl
  circle_color : Hsl
  history : List Record

/-- Function model from main.rs with every random draw made explicit: the hue
parameters, the accepted rejection samples, the sign draws and the velocity
jitters.  The history starts empty.  linecount is the number of particles. -/
noncomputable def modelInit (hue_start hue_run background_hue : ℚ)
    (xys : List (ℝ × ℝ)) (sgns : List Bool) (jits : List ℝ) : Model :=
  let particles := (xys.zip (sgns.zip jits)).map fun x =>
    mkParticle x.1.1 x.1.2 x.2.1 x.2.2
  let linecount := particles.length
  let colors := (List.range linecount).map fun i =>
    let hue := rustRem (map_range (i : ℚ) 0 ((linecount : ℚ) - 1)
      hue_start (hue_start + hue_run)) 1
    ({ hue := hue, saturation := 1/2, lightness := 1/2, alpha := 1/2 } : Hsla)
  { particles := particles
  , colors := colors
  , background := { hue := background_hue, saturation := 38/100, lightness := 33/100 }
  , circle_color := { hue := background_hue, saturation := 36/100, lightness := 33/100 }
  , history := [] }

/-- One tick of external input: the elapsed seconds and, for each particle,
the three uniform draws consumed by tweak_color. -/
abbrev TickIn : Type := ℝ × List (ℚ × ℚ × ℚ)

/-- The record pushed for one particle in update: the particle position and
the tweaked color. -/
def mkRecord (p : Particle) (c : Hsla) (d : ℚ × ℚ × ℚ) : Record :=
  { pos := p.pos, color := tweak_color c d.1 d.2.1 d.2.2 }

/-- The push_front loop of update: for each (particle, color) pair of the zip,
push one record at the front of the history. -/
def pushRecords (ps : List Particle) (cs : List Hsla) (ds : List (ℚ × ℚ × ℚ))
    (h : List Record) : List Record :=
  (ps.zip (cs.zip ds)).foldl (fun acc x => mkRecord x.1 x.2.1 x.2.2 :: acc) h

/-- Function update from main.rs: advance every particle, push one tweaked
record per particle at the front of the history, then truncate the history to
HISTORY * PARTICLES records, keeping the front. -/
noncomputable def updateModel (m : Model) (i : TickIn) : Model :=
  let particles := m.particles.map fun p => p.update i.1
  { m with particles := particles
         , history := (pushRecords particles m.colors i.2 m.history).take (HISTORY * PARTICLES) }

/-- Iterated update over a list of tick inputs, oldest first. -/
noncomputable def runTicks (m0 : Model) (inputs : List TickIn) : Model :=
  inputs.foldl updateModel m0

/-- The record that update builds for particle j at tick t (ticks counted
from 1): its position after the first t ticks and its base color perturbed by
the tweak draws of tick t. -/
noncomputable def recordOfParticle (m0 : Model) (inputs : List TickIn) (t j : ℕ) : Record :=
  { pos := ((runTicks m0 (inputs.take t)).particles.getD j default).pos
  , color := tweak_color (m0.colors.getD j default)
      (((inputs.getD (t - 1) default).2).getD j (0, 0, 0)).1
      (((inputs.getD (t - 1) default).2).getD j (0, 0, 0)).2.1
      (((inputs.getD (t - 1) default).2).getD j (0, 0, 0)).2.2 }

/-- The records of one materialized epoch, newest-first within the epoch:
slot k holds particle PARTICLES - 1 - k. -/
noncomputable def epochRecs (m0 : Model) (inputs : List TickIn) (t : ℕ) : List Record :=
  (List.range PARTICLES).map fun k => recordOfParticle m0 inputs t (PARTICLES - 1 - k)

/-- The full history after a run: epoch e holds tick (number of ticks - e),
truncated to capacity. -/
noncomputable def specHist (m0 : Model) (inputs : List TickIn) : List Record :=
  ((List.range inputs.length).flatMap fun e =>
    epochRecs m0 inputs (inputs.length - e)).take (HISTORY * PARTICLES)

/-- The itertools tuple_windows adaptor for pairs: adjacent pairs of a list. -/
def tupleWindows {α : Type} (l : List α) : List (α × α) := l.zip l.tail

/-- The index list emitted by draw_history, with the particle count p and the
epoch count e as parameters (the source fixes p = PARTICLES): for every
adjacent particle pair and every adjacent epoch pair, six indices forming two
triangles, where index (t, w) is flattened as t * p + w. -/
def drawIdxsP (p e : ℕ) : List ℕ :=
  (tupleWindows (List.range p)).flatMap fun w =>
    (tupleWindows (List.range e)).flatMap fun t =>
      [t.1 * p + w.1, t.2 * p + w.1, t.2 * p + w.2,
       t.1 * p + w.1, t.2 * p + w.2, t.1 * p + w.2]

/-- Modelled from the spec wording of the index generation, for comparison
with drawIdxsP: for every slot a from 0 to p-2 and every epoch pair
(past, past+1), the two triangles (past,a),(past+1,a),(past+1,a+1) and
(past,a),(past+1,a+1),(past,a+1) under the flattening e * p + slot. -/
def specIdxs (p e : ℕ) : List ℕ :=
  (List.range (p - 1)).flatMap fun a =>
    (List.range (e - 1)).flatMap fun past =>
      [past * p + a, (past + 1) * p + a, (past + 1) * p + (a + 1),
       past * p + a, (past + 1) * p + (a + 1), past * p + (a + 1)]

/-- The vertex list of draw_history: each record yields its 2D position
extended with the epoch index i / PARTICLES as third coordinate, and its
color. -/
def drawVerts (history : List Record) : List ((ℝ × ℝ × ℝ) × Hsla) :=
  history.enum.map fun x => ((x.2.pos.1, x.2.pos.2, ((x.1 / PARTICLES : ℕ) : ℝ)), x.2.color)

/-- Outcome of draw_history: the assert can fire, the function can return
early without drawing, or it draws a mesh. -/
inductive DrawResult where
  | panic : DrawResult
  | noDraw : DrawResult
  | drew (verts : List ((ℝ × ℝ × ℝ) × Hsla)) (idxs : List ℕ) : DrawResult

/-- Vertex list submitted by a draw outcome; nothing for panic or no draw. -/
def DrawResult.vertsOf : DrawResult → List ((ℝ × ℝ × ℝ) × Hsla)
  | .drew v _ => v
  | _ => []

/-- Index list submitted by a draw outcome; nothing for panic or no draw. -/
def DrawResult.idxsOf : DrawResult → List ℕ
  | .drew _ i => i
  | _ => []

/-- Function draw_history from main.rs: return early on an empty history,
assert that the history length is a whole number of epochs, then submit the
mesh built from the flattened history. -/
def draw_history (history : List Record) : DrawResult :=
  if history.isEmpty then .noDraw
  else if history.length % PARTICLES ≠ 0 then .panic
  else .drew (drawVerts history) (drawIdxsP PARTICLES (history.length / PARTICLES))

/-- A concrete model with sixteen resting particles, all base colors at hue
1/4, and an empty history, used to instantiate the run theorems. -/
def cModel : Model :=
  { particles := List.replicate 16 ⟨(0, 0), (0, 0)⟩
  , colors := List.replicate 16 ⟨1/4, 1/2, 1/2, 1/2⟩
  , background := ⟨0, 38/100, 33/100⟩
  , circle_color := ⟨0, 36/100, 33/100⟩
  , history := [] }

/-- Two concrete ticks: no elapsed time; every hue draw of the first tick is
1/125 and every hue draw of the second tick is -(1/125), the extreme
magnitudes the code can draw. -/
def cInputs : List TickIn :=
  [(0, List.replicate 16 (1/125, 0, 0)), (0, List.replicate 16 (-(1/125), 0, 0))]

/-- Truncation toward zero of a rational strictly between -1 and 1 is zero. -/
theorem rtrunc_eq_zero {x : ℚ} (h1 : -1 < x) (h2 : x < 1) : rtrunc x = 0 := by
  have hd : (0 : ℚ) < (x.den : ℚ) := by exact_mod_cast x.den_pos
  have hx : (x.num : ℚ) = x * (x.den : ℚ) :=
    (div_eq_iff (ne_of_gt hd)).mp (Rat.num_div_den x)
  have hnZ : x.num < (x.den : ℤ) := by
    exact_mod_cast (by nlinarith : (x.num : ℚ) < (x.den : ℚ))
  have hnZ' : -(x.den : ℤ) < x.num := by
    exact_mod_cast (by nlinarith : -(x.den : ℚ) < (x.num : ℚ))
  unfold rtrunc
  rcases le_or_lt 0 x.num with hpos | hneg
  · exact Int.tdiv_eq_zero_of_lt hpos hnZ
  · have h := Int.tdiv_eq_zero_of_lt (a := -x.num) (b := (x.den : ℤ))
      (by omega) (by omega)
    have h2 := Int.neg_tdiv x.num (x.den : ℤ)
    omega

/-- The Rust remainder by 1 is the identity on (-1, 1). -/
theorem rustRem_one {x : ℚ} (h1 : -1 < x) (h2 : x < 1) : rustRem x 1 = x := by
  unfold rustRem
  rw [div_one, rtrunc_eq_zero h1 h2]
  simp

/-- Bounds for the palette hue normalization: it lands in [-1/2, 1/2). -/
theorem normTurns_bounds (x : ℚ) : -(1/2) ≤ normTurns x ∧ normTurns x < 1/2 := by
  unfold normTurns
  constructor
  · have := Int.floor_le (x + 1/2)
    linarith
  · have := Int.lt_floor_add_one (x + 1/2)
    linarith

/-- The squared length of a vector is nonnegative. -/
theorem dot_nonneg (v : ℝ × ℝ) : 0 ≤ v.1 * v.1 + v.2 * v.2 := by nlinarith [sq_nonneg v.1, sq_nonneg v.2]

/-- A vector has length zero exactly when it is the zero vector. -/
theorem vlen_eq_zero_iff {v : ℝ × ℝ} : vlen v = 0 ↔ v = (0, 0) := by
  unfold vlen
  rw [Real.sqrt_eq_zero']
  constructor
  · intro h
    have h1 : v.1 = 0 := by nlinarith [sq_nonneg v.1, sq_nonneg v.2]
    have h2 : v.2 = 0 := by nlinarith [sq_nonneg v.1, sq_nonneg v.2]
    exact Prod.ext h1 h2
  · intro h
    rw [h]
    norm_num

/-- A nonzero vector has positive length. -/
theorem vlen_pos {v : ℝ × ℝ} (h : v ≠ (0, 0)) : 0 < vlen v := by
  rcases lt_or_eq_of_le (Real.sqrt_nonneg (v.1 * v.1 + v.2 * v.2)) with hlt | heq
  · exact hlt
  · exact absurd (vlen_eq_zero_iff.mp heq.symm) h

/-- Length scales by the absolute value of a scalar factor. -/
theorem vlen_smul (c : ℝ) (v : ℝ × ℝ) : vlen (c • v) = |c| * vlen v := by
  unfold vlen
  have h1 : (c • v).1 = c * v.1 := by
    rw [Prod.smul_fst]; rfl
  have h2 : (c • v).2 = c * v.2 := by
    rw [Prod.smul_snd]; rfl
  rw [h1, h2]
  have : c * v.1 * (c * v.1) + c * v.2 * (c * v.2) = c * c * (v.1 * v.1 + v.2 * v.2) := by
    ring
  rw [this, Real.sqrt_mul (mul_self_nonneg c), Real.sqrt_mul_self_eq_abs]

/-- The glam normalize is scaling by the reciprocal length. -/
theorem vnormalize_eq_smul (v : ℝ × ℝ) : vnormalize v = (vlen v)⁻¹ • v := by
  unfold vnormalize
  rw [Prod.smul_def]
  apply Prod.ext <;> simp [smul_eq_mul, div_eq_inv_mul]

/-- Normalizing a nonzero vector yields a unit vector. -/
theorem vlen_vnormalize {v : ℝ × ℝ} (h : v ≠ (0, 0)) : vlen (vnormalize v) = 1 := by
  have hp := vlen_pos h
  rw [vnormalize_eq_smul, vlen_smul, abs_inv, abs_of_pos hp, inv_mul_cancel₀ (ne_of_gt hp)]

/-- The accepted rejection sample, once normalized, is a unit vector. -/
theorem vlen_point_on_circle {x y : ℝ} (h : x * x + y * y ≠ 0) :
    vlen (point_on_circle x y) = 1 := by
  have hnn : 0 ≤ x * x + y * y := dot_nonneg (x, y)
  have hpos : 0 < x * x + y * y := lt_of_le_of_ne hnn (Ne.symm h)
  have hs : Real.sqrt (x * x + y * y) * Real.sqrt (x * x + y * y) = x * x + y * y :=
    Real.mul_self_sqrt hnn
  have hspos : 0 < Real.sqrt  (x * x + y * y) := Real.sqrt_pos.mpr hpos
  unfold point_on_circle vlen
  have harg : x / Real.sqrt (x * x + y * y) * (x / Real.sqrt (x * x + y * y)) +
      y / Real.sqrt (x * x + y * y) * (y / Real.sqrt (x * x + y * y)) = 1 := by
    field_simp
  rw [harg, Real.sqrt_one]

/-- The position built by the initialization loop. -/
theorem mkParticle_pos (x y : ℝ) (sgn : Bool) (jit : ℝ) :
    (mkParticle x y sgn jit).pos = ORBITAL_RADIUS • point_on_circle x y := by
  simp [mkParticle]

/-- The velocity built by the initialization loop. -/
theorem mkParticle_vel (x y : ℝ) (sgn : Bool) (jit : ℝ) :
    (mkParticle x y sgn jit).vel =
      ((if sgn then Real.sqrt gm else -Real.sqrt gm) + jit) •
        vnormalize ((ORBITAL_RADIUS • point_on_circle x y).2,
          -(ORBITAL_RADIUS • point_on_circle x y).1) := by
  simp [mkParticle]

/-- For an accepted rejection sample, the initialized position sits exactly on
the orbital circle. -/
theorem mkParticle_pos_len {x y : ℝ} (h : x * x + y * y ≠ 0) (sgn : Bool) (jit : ℝ) :
    vlen (mkParticle x y sgn jit).pos = ORBITAL_RADIUS := by
  rw [mkParticle_pos, vlen_smul, vlen_point_on_circle h, mul_one,
    abs_of_pos (show (0:ℝ) < ORBITAL_RADIUS by norm_num [ORBITAL_RADIUS])]

/-- For an accepted rejection sample, the initialized position is nonzero. -/
theorem mkParticle_pos_ne {x y : ℝ} (h : x * x + y * y ≠ 0) (sgn : Bool) (jit : ℝ) :
    (mkParticle x y sgn jit).pos ≠ (0, 0) := by
  intro hz
  have hlen := mkParticle_pos_len h sgn jit
  rw [hz, vlen_eq_zero_iff.mpr rfl] at hlen
  norm_num [ORBITAL_RADIUS] at hlen

/-- The initialized speed is the absolute value of the signed, jittered
scalar, because the tangential direction vector is a unit vector. -/
theorem mkParticle_vel_len {x y : ℝ} (h : x * x + y * y ≠ 0) (sgn : Bool) (jit : ℝ) :
    vlen (mkParticle x y sgn jit).vel =
      |(if sgn then Real.sqrt gm else -Real.sqrt gm) + jit| := by
  have hpos := mkParticle_pos_ne h sgn jit
  rw [mkParticle_pos] at hpos
  have hperp : ((ORBITAL_RADIUS • point_on_circle x y).2,
      -(ORBITAL_RADIUS • point_on_circle x y).1) ≠ ((0:ℝ), (0:ℝ)) := by
    intro hz
    rw [Prod.mk.injEq] at hz
    exact hpos (Prod.ext (neg_eq_zero.mp hz.2) hz.1)
  rw [mkParticle_vel, vlen_smul, vlen_vnormalize hperp, mul_one]

/-- Claim C7: after initialization, every particle position has length
exactly ORBITAL_RADIUS: the accepted rejection sample (x, y) divided by the
square root of x*x + y*y is a unit vector, and scaling by the orbital radius
gives a position of length ORBITAL_RADIUS. -/
theorem init_pos_on_orbit (hs hr bh : ℚ) (xys : List (ℝ × ℝ)) (sgns : List Bool)
    (jits : List ℝ) (hxy : ∀ v ∈ xys, v.1 * v.1 + v.2 * v.2 ≠ 0) :
    ∀ p ∈ (modelInit hs hr bh xys sgns jits).particles, vlen p.pos = ORBITAL_RADIUS := by
  intro p hp
  simp only [modelInit, List.mem_map] at hp
  obtain ⟨x, hx, rfl⟩ := hp
  exact mkParticle_pos_len (hxy _ (List.of_mem_zip hx).1) _ _

/-- Claim C7 witness at one concrete sample. -/
theorem init_pos_on_orbit_witness :
    vlen (mkParticle 1 0 true 0).pos = ORBITAL_RADIUS :=
  init_pos_on_orbit 0 (1/4) 0 [((1:ℝ), (0:ℝ))] [true] [(0:ℝ)]
    (by intro v hv; rw [List.mem_singleton] at hv; rw [hv]; norm_num)
    (mkParticle 1 0 true 0) (by simp [modelInit])

/-- Claim C8: after initialization, every particle speed lies within
[sqrt gm - VARY_VELOCITY, sqrt gm + VARY_VELOCITY], the speed being the
signed circular-orbit speed plus a bounded jitter times a unit tangential
vector, and for the configured defaults VARY_VELOCITY < sqrt gm. -/
theorem init_speed_band (hs hr bh : ℚ) (xys : List (ℝ × ℝ)) (sgns : List Bool)
    (jits : List ℝ) (hxy : ∀ v ∈ xys, v.1 * v.1 + v.2 * v.2 ≠ 0)
    (hj : ∀ j ∈ jits, -VARY_VELOCITY ≤ j ∧ j ≤ VARY_VELOCITY) :
    VARY_VELOCITY < Real.sqrt gm ∧
    ∀ p ∈ (modelInit hs hr bh xys sgns jits).particles,
      Real.sqrt gm - VARY_VELOCITY ≤ vlen p.vel ∧
      vlen p.vel ≤ Real.sqrt gm + VARY_VELOCITY := by
  have hgm : VARY_VELOCITY < Real.sqrt gm := by
    unfold VARY_VELOCITY gm ORBITAL_RADIUS
    exact (Real.lt_sqrt (by norm_num)).mpr (by norm_num)
  refine ⟨hgm, ?_⟩
  intro p hp
  simp only [modelInit, List.mem_map] at hp
  obtain ⟨x, hx, rfl⟩ := hp
  obtain ⟨hmem1, hx2⟩ := List.of_mem_zip hx
  obtain ⟨hmem2, hmem3⟩ := List.of_mem_zip hx2
  obtain ⟨hjlo, hjhi⟩ := hj _ hmem3
  rw [mkParticle_vel_len (hxy _ hmem1)]
  cases hb : x.2.1 with
  | true =>
    rw [if_pos rfl]
    rw [abs_of_nonneg (by linarith)]
    constructor <;> linarith
  | false =>
    rw [if_neg (by simp)]
    rw [abs_of_nonpos (by linarith)]
    constructor <;> linarith

/-- Claim C8 witness at one concrete sample. -/
theorem init_speed_band_witness :
    VARY_VELOCITY < Real.sqrt gm ∧
    (Real.sqrt gm - VARY_VELOCITY ≤ vlen (mkParticle 1 0 true 0).vel ∧
     vlen (mkParticle 1 0 true 0).vel ≤ Real.sqrt gm + VARY_VELOCITY) := by
  have h := init_speed_band 0 (1/4) 0 [((1:ℝ), (0:ℝ))] [true] [(0:ℝ)]
    (by intro v hv; rw [List.mem_singleton] at hv; rw [hv]; norm_num)
    (by intro j hj; rw [List.mem_singleton] at hj; rw [hj]; norm_num [VARY_VELOCITY])
  exact ⟨h.1, h.2 (mkParticle 1 0 true 0) (by simp [modelInit])⟩

/-- Claim C3: one integration step computes exactly the formulas of the spec
(the truncated forms agree up to commutativity), and on the golden scenario
with position (1000, 0), velocity (0, 238.7) and deltaSeconds 1 the result is
the deterministic value given by those formulas. -/
theorem step_matches_spec :
    (∀ (p : Particle) (dt : ℝ), p.pos + dt • p.vel ≠ (0, 0) →
      Particle.update p dt = specStep p dt) ∧
    Particle.update ⟨((1000:ℝ), (0:ℝ)), ((0:ℝ), (2387/10:ℝ))⟩ 1 =
      { pos := ((1000 : ℝ), (2387/10 : ℝ))
      , vel := (0 - 1000 / Real.sqrt (1000 * 1000 + 2387/10 * (2387/10))
            + 1 / (2 * Real.sqrt (1000 * 1000 + 2387/10 * (2387/10))),
          2387/10 - 2387/10 / Real.sqrt (1000 * 1000 + 2387/10 * (2387/10))
            + 1 / (2 * Real.sqrt (1000 * 1000 + 2387/10 * (2387/10)))) } := by
  constructor
  · intro p dt _
    unfold Particle.update specStep
    rw [Particle.mk.injEq]
    refine ⟨rfl, ?_⟩
    apply Prod.ext
    · simp only [Prod.fst_add, Prod.fst_neg]
      ring
    · simp only [Prod.snd_add, Prod.snd_neg]
      ring
  · unfold Particle.update
    simp only [Particle.mk.injEq, Prod.ext_iff, Prod.fst_add, Prod.snd_add, Prod.fst_neg,
      Prod.snd_neg, Prod.smul_mk, smul_eq_mul, Prod.mk_add_mk, vnormalize, vlen]
    norm_num
    constructor <;> ring

/-- Claim C3 witness: the refinement applied at the golden state. -/
theorem step_matches_spec_witness :
    Particle.update ⟨((1000:ℝ), (0:ℝ)), ((0:ℝ), (2387/10:ℝ))⟩ 1 =
      specStep ⟨((1000:ℝ), (0:ℝ)), ((0:ℝ), (2387/10:ℝ))⟩ 1 :=
  step_matches_spec.1 _ 1
    (by simp only [Prod.smul_mk, smul_eq_mul, Prod.mk_add_mk, Prod.mk.injEq, not_and]
        norm_num)

/-- Claim C9: the force computation divides by 2 * |advanced position| with
no guard: that divisor vanishes exactly when the advanced position is the
origin, and whenever the advanced position is nonzero both the division and
the normalize are well defined (nonzero divisor, unit normalized vector).
The first conjunct records that Particle.update indeed advances the position
first. -/
theorem force_divisor_zero_iff :
    ∀ (p : Particle) (dt : ℝ),
      ((Particle.update p dt).pos = p.pos + dt • p.vel) ∧
      (vlen (p.pos + dt • p.vel) * 2 = 0 ↔ p.pos + dt • p.vel = (0, 0)) ∧
      (p.pos + dt • p.vel ≠ (0, 0) →
        vlen (p.pos + dt • p.vel) * 2 ≠ 0 ∧ vlen (vnormalize (p.pos + dt • p.vel)) = 1) := by
  intro p dt
  refine ⟨rfl, ⟨?_, ?_⟩, ?_⟩
  · intro h
    rcases mul_eq_zero.mp h with h1 | h2
    · exact vlen_eq_zero_iff.mp h1
    · norm_num at h2
  · intro h
    rw [vlen_eq_zero_iff.mpr h]
    ring
  · intro h
    exact ⟨mul_ne_zero (fun hh => h (vlen_eq_zero_iff.mp hh)) (by norm_num),
      vlen_vnormalize h⟩

/-- Claim C9 witness at the golden state. -/
theorem force_divisor_zero_iff_witness :
    vlen ((((1000:ℝ), (0:ℝ)) : ℝ × ℝ) + (1:ℝ) • (((0:ℝ), (2387/10:ℝ)) : ℝ × ℝ)) * 2 ≠ 0 ∧
    vlen (vnormalize ((((1000:ℝ), (0:ℝ)) : ℝ × ℝ) + (1:ℝ) • (((0:ℝ), (2387/10:ℝ)) : ℝ × ℝ))) = 1 :=
  (force_divisor_zero_iff ⟨((1000:ℝ), (0:ℝ)), ((0:ℝ), (2387/10:ℝ))⟩ 1).2.2
    (by simp only [Prod.smul_mk, smul_eq_mul, Prod.mk_add_mk, Prod.mk.injEq, not_and]
        norm_num)

/-- Folding cons of a function over a list prepends the reversed image. -/
theorem foldl_cons_eq_reverse_append {α β : Type} (f : α → β) :
    ∀ (l : List α) (h : List β),
      l.foldl (fun acc x => f x :: acc) h = (l.map f).reverse ++ h := by
  intro l
  induction l with
  | nil => intro h; rfl
  | cons a l ih =>
    intro h
    simp only [List.foldl_cons, List.map_cons, List.reverse_cons, ih]
    rw [List.append_assoc, List.singleton_append]

/-- The push_front loop prepends the new records in reverse zip order. -/
theorem pushRecords_eq (ps : List Particle) (cs : List Hsla) (ds : List (ℚ × ℚ × ℚ))
    (h : List Record) :
    pushRecords ps cs ds h =
      ((ps.zip (cs.zip ds)).map fun x => mkRecord x.1 x.2.1 x.2.2).reverse ++ h :=
  foldl_cons_eq_reverse_append _ _ _

/-- Running one more tick is one update of the run so far. -/
theorem runTicks_append (m0 : Model) (ins : List TickIn) (i : TickIn) :
    runTicks m0 (ins ++ [i]) = updateModel (runTicks m0 ins) i := by
  unfold runTicks
  rw [List.foldl_append]
  rfl

/-- The update function never touches the base colors. -/
theorem runTicks_colors (m0 : Model) (inputs : List TickIn) :
    (runTicks m0 inputs).colors = m0.colors := by
  induction inputs generalizing m0 with
  | nil => rfl
  | cons i is ih =>
    show (runTicks (updateModel m0 i) is).colors = m0.colors
    rw [ih]
    rfl

/-- The update function preserves the number of particles. -/
theorem runTicks_particles_length (m0 : Model) (inputs : List TickIn) :
    (runTicks m0 inputs).particles.length = m0.particles.length := by
  induction inputs generalizing m0 with
  | nil => rfl
  | cons i is ih =>
    show (runTicks (updateModel m0 i) is).particles.length = _
    rw [ih]
    simp [updateModel]

/-- The particles after one more tick are the updated particles. -/
theorem runTicks_particles_append (m0 : Model) (ins : List TickIn) (i : TickIn) :
    (runTicks m0 (ins ++ [i])).particles =
      (runTicks m0 ins).particles.map fun p => p.update i.1 := by
  rw [runTicks_append]
  rfl

/-- Number of records pushed by one tick before truncation. -/
theorem pushRecords_length (ps : List Particle) (cs : List Hsla) (ds : List (ℚ × ℚ × ℚ))
    (h : List Record) :
    (pushRecords ps cs ds h).length =
      min ps.length (min cs.length ds.length) + h.length := by
  rw [pushRecords_eq]
  simp [List.length_zip]

/-- getD commutes with take below the cut. -/
theorem getD_take {α : Type} (l : List α) (d : α) {n m : ℕ} (h : m < n) :
    (l.take n).getD m d = l.getD m d := by
  rw [List.getD_eq_getElem?_getD, List.getD_eq_getElem?_getD, List.getElem?_take, if_pos h]

/-- getD on a reversed list reads from the mirrored index. -/
theorem getD_reverse {α : Type} (l : List α) (d : α) {k : ℕ} (h : k < l.length) :
    l.reverse.getD k d = l.getD (l.length - 1 - k) d := by
  have h1 : k < l.reverse.length := by rw [List.length_reverse]; exact h
  rw [List.getD_eq_getElem _ _ h1, List.getD_eq_getElem _ _ (by omega), List.getElem_reverse]

/-- History length after a run: PARTICLES records per tick, capped at
HISTORY * PARTICLES. -/
theorem runTicks_history_length (m0 : Model)
    (hp : m0.particles.length = PARTICLES) (hc : m0.colors.length = PARTICLES)
    (h0 : m0.history = []) :
    ∀ (inputs : List TickIn), (∀ i ∈ inputs, i.2.length = PARTICLES) →
      (runTicks m0 inputs).history.length =
        min (inputs.length * PARTICLES) (HISTORY * PARTICLES) := by
  intro inputs
  induction inputs using List.reverseRecOn with
  | nil => intro _; simp [runTicks, h0]
  | append_singleton ins i ih =>
    intro hd
    have ihl := ih fun j hj => hd j (List.mem_append_left _ hj)
    have hdi : i.2.length = PARTICLES :=
      hd i (List.mem_append_right _ (List.mem_singleton_self i))
    rw [runTicks_append]
    show (List.take (HISTORY * PARTICLES) _).length = _
    rw [List.length_take, pushRecords_length, List.length_map,
      runTicks_particles_length, runTicks_colors, hp, hc, hdi, ihl]
    simp only [List.length_append, List.length_singleton]
    simp only [PARTICLES, HISTORY]
    omega

/-- Appending a later tick does not change the record built for an earlier
tick t with 1 ≤ t ≤ number of ticks. -/
theorem recordOfParticle_append (m0 : Model) (ins : List TickIn) (i : TickIn)
    {t : ℕ} (h1 : 1 ≤ t) (h2 : t ≤ ins.length) (j : ℕ) :
    recordOfParticle m0 (ins ++ [i]) t j = recordOfParticle m0 ins t j := by
  have hlt : t - 1 < ins.length := by omega
  unfold recordOfParticle
  rw [List.take_append_of_le_length h2]
  simp only [List.getD_eq_getElem?_getD]
  rw [List.getElem?_append, if_pos hlt]

/-- The record built for the newest tick of a run. -/
theorem recordOfParticle_last (m0 : Model) (ins : List TickIn) (i : TickIn) (j : ℕ) :
    recordOfParticle m0 (ins ++ [i]) (ins.length + 1) j =
      { pos := (((runTicks m0 ins).particles.map fun p : Particle => p.update i.1).getD
          j default).pos
      , color := tweak_color (m0.colors.getD j default)
          (i.2.getD j (0, 0, 0)).1 (i.2.getD j (0, 0, 0)).2.1
          (i.2.getD j (0, 0, 0)).2.2 } := by
  unfold recordOfParticle
  have h1 : (ins ++ [i]).getD (ins.length + 1 - 1) default = i := by
    rw [Nat.add_sub_cancel, List.getD_append_right _ _ _ _ (le_refl _), Nat.sub_self]
    rfl
  have h2 : (ins ++ [i]).take (ins.length + 1) = ins ++ [i] := by
    rw [show ins.length + 1 = (ins ++ [i]).length by simp, List.take_length]
  rw [h1, h2, runTicks_particles_append]

/-- Where each record of the history comes from: after any run from an empty
history, the record at flat index e * PARTICLES + k is the record that the
code pushed for particle PARTICLES - 1 - k at tick (number of ticks - e),
with ticks counted from 1. -/
theorem history_trace (m0 : Model)
    (hp : m0.particles.length = PARTICLES) (hc : m0.colors.length = PARTICLES)
    (h0 : m0.history = []) :
    ∀ (inputs : List TickIn), (∀ i ∈ inputs, i.2.length = PARTICLES) →
    ∀ (e k : ℕ), k < PARTICLES →
      e * PARTICLES + k < (runTicks m0 inputs).history.length →
      (runTicks m0 inputs).history.getD (e * PARTICLES + k) default =
        recordOfParticle m0 inputs (inputs.length - e) (PARTICLES - 1 - k) := by
  intro inputs
  induction inputs using List.reverseRecOn with
  | nil =>
    intro _ e k _ hl
    unfold runTicks at hl
    simp [h0] at hl
  | append_singleton ins i ih =>
    intro hd e k hk hl
    have hdins : ∀ j ∈ ins, j.2.length = PARTICLES :=
      fun j hj => hd j (List.mem_append_left _ hj)
    have hdi : i.2.length = PARTICLES :=
      hd i (List.mem_append_right _ (List.mem_singleton_self i))
    have hlen' := runTicks_history_length m0 hp hc h0 (ins ++ [i]) hd
    have hlenins := runTicks_history_length m0 hp hc h0 ins hdins
    have hcolors : (runTicks m0 ins).colors = m0.colors := runTicks_colors m0 ins
    have hparts : ((runTicks m0 ins).particles.map fun p => p.update i.1).length =
        PARTICLES := by
      rw [List.length_map, runTicks_particles_length, hp]
    have hhist : (runTicks m0 (ins ++ [i])).history =
        List.take (HISTORY * PARTICLES)
          (((((runTicks m0 ins).particles.map fun p => p.update i.1).zip
              (m0.colors.zip i.2)).map fun x => mkRecord x.1 x.2.1 x.2.2).reverse ++
            (runTicks m0 ins).history) := by
      rw [runTicks_append]
      show List.take _ (pushRecords _ _ _ _) = _
      rw [pushRecords_eq, hcolors]
    have hZ : ((((runTicks m0 ins).particles.map fun p => p.update i.1).zip
        (m0.colors.zip i.2)).map fun x => mkRecord x.1 x.2.1 x.2.2).length = PARTICLES := by
      simp only [List.length_map, List.length_zip, hparts, hc, hdi]
      simp
    have hcap : e * PARTICLES + k < HISTORY * PARTICLES := by
      rw [hlen'] at hl
      omega
    rw [hhist, getD_take _ _ hcap]
    rw [hlen', List.length_append, List.length_singleton] at hl
    cases e with
    | zero =>
      simp only [Nat.zero_mul, Nat.zero_add]
      rw [List.getD_append _ _ _ k (by rw [List.length_reverse, hZ]; exact hk)]
      rw [getD_reverse _ _ (by rw [hZ]; exact hk), hZ]
      rw [List.getD_eq_getElem _ _ (by rw [hZ]; omega)]
      rw [List.getElem_map, List.getElem_zip, List.getElem_zip]
      simp only [List.length_append, List.length_singleton, Nat.sub_zero]
      rw [recordOfParticle_last]
      rw [List.getD_eq_getElem ((runTicks m0 ins).particles.map fun p => p.update i.1)
        default (show PARTICLES - 1 - k < _ by rw [hparts]; omega)]
      rw [List.getD_eq_getElem m0.colors default
        (show PARTICLES - 1 - k < m0.colors.length by rw [hc]; omega)]
      rw [List.getD_eq_getElem i.2 (0, 0, 0)
        (show PARTICLES - 1 - k < i.2.length by rw [hdi]; omega)]
      rfl
    | succ e' =>
      have hP : (0:ℕ) < PARTICLES := by simp [PARTICLES]
      rw [List.getD_append_right _ _ _ _
        (by rw [List.length_reverse, hZ]; simp only [PARTICLES]; omega)]
      rw [List.length_reverse, hZ]
      have harith : (e' + 1) * PARTICLES + k - PARTICLES = e' * PARTICLES + k := by
        simp only [PARTICLES]
        omega
      rw [harith]
      have hbound : e' * PARTICLES + k < (runTicks m0 ins).history.length := by
        rw [hlenins]
        simp only [PARTICLES, HISTORY] at hl ⊢
        omega
      rw [ih hdins e' k hk hbound]
      have he'T : e' < ins.length := by
        simp only [PARTICLES, HISTORY] at hl
        omega
      simp only [List.length_append, List.length_singleton]
      rw [show ins.length + 1 - (e' + 1) = ins.length - e' by omega]
      rw [recordOfParticle_append m0 ins i (by omega) (by omega)]

/-- Claim C4: after any sequence of ticks starting from an empty history,
the history length is a multiple of PARTICLES (one whole batch per tick) and
never exceeds HISTORY * PARTICLES (the truncation capacity). -/
theorem history_length_invariant (m0 : Model) (inputs : List TickIn)
    (hp : m0.particles.length = PARTICLES) (hc : m0.colors.length = PARTICLES)
    (h0 : m0.history = []) (hd : ∀ i ∈ inputs, i.2.length = PARTICLES) :
    (runTicks m0 inputs).history.length % PARTICLES = 0 ∧
    (runTicks m0 inputs).history.length ≤ HISTORY * PARTICLES := by
  rw [runTicks_history_length m0 hp hc h0 inputs hd]
  constructor
  · rcases min_cases (inputs.length * PARTICLES) (HISTORY * PARTICLES) with ⟨h, _⟩ | ⟨h, _⟩ <;>
      rw [h] <;> exact Nat.mul_mod_left _ _
  · exact min_le_right _ _

/-- Claim C4 witness: a concrete sixteen-particle model run for two ticks. -/
theorem history_length_invariant_witness :
    (runTicks cModel cInputs).history.length % PARTICLES = 0 ∧
    (runTicks cModel cInputs).history.length ≤ HISTORY * PARTICLES :=
  history_length_invariant cModel cInputs (by simp [cModel, PARTICLES])
    (by simp [cModel, PARTICLES]) rfl (by simp [cInputs, PARTICLES])

/-- Claim C10: in every reachable history, the record at flat index
e * PARTICLES + k is the snapshot of particle PARTICLES - 1 - k, taken at the
tick that produced epoch e: each tick pushes its records to the front one at
a time in particle order, so each epoch stores them in reverse particle
order, and the slot-to-particle mapping is the same for every epoch. -/
theorem history_slot_mapping (m0 : Model) (inputs : List TickIn)
    (hp : m0.particles.length = PARTICLES) (hc : m0.colors.length = PARTICLES)
    (h0 : m0.history = []) (hd : ∀ i ∈ inputs, i.2.length = PARTICLES)
    (e k : ℕ) (hk : k < PARTICLES)
    (hl : e * PARTICLES + k < (runTicks m0 inputs).history.length) :
    (runTicks m0 inputs).history.getD (e * PARTICLES + k) default =
      recordOfParticle m0 inputs (inputs.length - e) (PARTICLES - 1 - k) :=
  history_trace m0 hp hc h0 inputs hd e k hk hl

/-- Claim C10 witness: slot 2 of epoch 1 after two concrete ticks holds the
record of particle 13 from the first tick. -/
theorem history_slot_mapping_witness :
    (runTicks cModel cInputs).history.getD (1 * PARTICLES + 2) default =
      recordOfParticle cModel cInputs (cInputs.length - 1) (PARTICLES - 1 - 2) :=
  history_slot_mapping cModel cInputs (by simp [cModel, PARTICLES])
    (by simp [cModel, PARTICLES]) rfl (by simp [cInputs, PARTICLES]) 1 2
    (by simp [PARTICLES])
    (by rw [runTicks_history_length cModel (by simp [cModel, PARTICLES])
          (by simp [cModel, PARTICLES]) rfl cInputs (by simp [cInputs, PARTICLES])]
        norm_num [cInputs, PARTICLES, HISTORY])

/-- Claim C1 (amended): each tick applies tweak_color once per particle to
the FIXED base color of that particle in Model.colors, never updated by ticks;
the color recorded for slot k of any epoch is therefore a single-step
perturbation of the base color of particle PARTICLES - 1 - k by the draws of
the tick that produced that epoch, not a perturbation of the previously
recorded color. -/
theorem trail_color_from_fixed_base (m0 : Model) (inputs : List TickIn)
    (hp : m0.particles.length = PARTICLES) (hc : m0.colors.length = PARTICLES)
    (h0 : m0.history = []) (hd : ∀ i ∈ inputs, i.2.length = PARTICLES) :
    (runTicks m0 inputs).colors = m0.colors ∧
    ∀ (e k : ℕ), k < PARTICLES →
      e * PARTICLES + k < (runTicks m0 inputs).history.length →
      ((runTicks m0 inputs).history.getD (e * PARTICLES + k) default).color =
        tweak_color (m0.colors.getD (PARTICLES - 1 - k) default)
          (((inputs.getD (inputs.length - e - 1) default).2).getD
            (PARTICLES - 1 - k) (0, 0, 0)).1
          (((inputs.getD (inputs.length - e - 1) default).2).getD
            (PARTICLES - 1 - k) (0, 0, 0)).2.1
          (((inputs.getD (inputs.length - e - 1) default).2).getD
            (PARTICLES - 1 - k) (0, 0, 0)).2.2 := by
  refine ⟨runTicks_colors m0 inputs, ?_⟩
  intro e k hk hl
  rw [history_trace m0 hp hc h0 inputs hd e k hk hl]
  rfl

/-- Claim C1 (amended) witness: the newest record of a concrete run. -/
theorem trail_color_from_fixed_base_witness :
    (runTicks cModel cInputs).colors = cModel.colors ∧
    ((runTicks cModel cInputs).history.getD (0 * PARTICLES + 0) default).color =
      tweak_color (cModel.colors.getD (PARTICLES - 1 - 0) default)
        (((cInputs.getD (cInputs.length - 0 - 1) default).2).getD
          (PARTICLES - 1 - 0) (0, 0, 0)).1
        (((cInputs.getD (cInputs.length - 0 - 1) default).2).getD
          (PARTICLES - 1 - 0) (0, 0, 0)).2.1
        (((cInputs.getD (cInputs.length - 0 - 1) default).2).getD
          (PARTICLES - 1 - 0) (0, 0, 0)).2.2 := by
  have h := trail_color_from_fixed_base cModel cInputs (by simp [cModel, PARTICLES])
    (by simp [cModel, PARTICLES]) rfl (by simp [cInputs, PARTICLES])
  refine ⟨h.1, h.2 0 0 (by simp [PARTICLES]) ?_⟩
  rw [runTicks_history_length cModel (by simp [cModel, PARTICLES])
    (by simp [cModel, PARTICLES]) rfl cInputs (by simp [cInputs, PARTICLES])]
  norm_num [cInputs, PARTICLES, HISTORY]

/-- getD on a replicated list below the length returns the repeated value. -/
theorem getD_replicate {α : Type} (a d : α) {n m : ℕ} (h : m < n) :
    (List.replicate n a).getD m d = a := by
  rw [List.getD_eq_getElem _ _ (by simpa using h), List.getElem_replicate]

/-- When the stored hue lies in [0, 1/2) and the draw is within magnitude,
the tweaked hue is exactly the stored hue plus the draw. -/
theorem tweak_hue_of_small (c : Hsla) (rh rs rl : ℚ) (hh0 : 0 ≤ c.hue)
    (hh1 : c.hue < 1/2) (hr0 : -MAG ≤ rh) (hr1 : rh ≤ MAG) :
    (tweak_color c rh rs rl).hue = c.hue + rh := by
  show rustRem (normTurns c.hue + rh) 1 = c.hue + rh
  have hM : MAG = 8/1000 := rfl
  rw [hM] at hr0 hr1
  have hfl : normTurns c.hue = c.hue := by
    unfold normTurns
    rw [Int.floor_eq_zero_iff.mpr (Set.mem_Ico.mpr ⟨by linarith, by linarith⟩)]
    simp
  rw [hfl, rustRem_one (by linarith) (by linarith)]

/-- Claim C1 counterexample: after two concrete ticks whose hue draws are
+1/125 then -1/125, the newest recorded color is NOT the previous recorded
color perturbed by the newest tick draws: the code records hue 121/500
(the fixed base hue 1/4 minus 1/125), while applying the newest perturbation
to the previously recorded hue 129/500 would give 125/500.  The two recorded
hues even differ by 2/125, more than any single draw of magnitude 1/125
could move the hue, so no compounding walk explains the history. -/
theorem trail_color_not_compounding :
    ((runTicks cModel cInputs).history.getD 0 default).color ≠
      tweak_color (((runTicks cModel cInputs).history.getD 16 default).color)
        (-(1/125)) 0 0 := by
  have hp : cModel.particles.length = PARTICLES := by simp [cModel, PARTICLES]
  have hc : cModel.colors.length = PARTICLES := by simp [cModel, PARTICLES]
  have hd : ∀ i ∈ cInputs, i.2.length = PARTICLES := by simp [cInputs, PARTICLES]
  have hlen := runTicks_history_length cModel hp hc rfl cInputs hd
  have h0 := history_trace cModel hp hc rfl cInputs hd 0 0 (by simp [PARTICLES])
    (by rw [hlen]; norm_num [cInputs, PARTICLES, HISTORY])
  have h1 := history_trace cModel hp hc rfl cInputs hd 1 0 (by simp [PARTICLES])
    (by rw [hlen]; norm_num [cInputs, PARTICLES, HISTORY])
  rw [show 0 * PARTICLES + 0 = 0 from by simp] at h0
  rw [show 1 * PARTICLES + 0 = 16 from by norm_num [PARTICLES]] at h1
  rw [h0, h1]
  have hLcolor : (recordOfParticle cModel cInputs (cInputs.length - 0) (PARTICLES - 1 - 0)).color =
      tweak_color ⟨1/4, 1/2, 1/2, 1/2⟩ (-(1/125)) 0 0 := by
    show tweak_color (cModel.colors.getD (PARTICLES - 1 - 0) default) _ _ _ = _
    have hbase : cModel.colors.getD (PARTICLES - 1 - 0) default =
        (⟨1/4, 1/2, 1/2, 1/2⟩ : Hsla) := by
      show (List.replicate 16 (⟨1/4, 1/2, 1/2, 1/2⟩ : Hsla)).getD _ _ = _
      exact getD_replicate _ _ (by norm_num [PARTICLES])
    have hdraw : ((cInputs.getD (cInputs.length - 0 - 1) default).2).getD
        (PARTICLES - 1 - 0) (0, 0, 0) = (-((1:ℚ)/125), (0:ℚ), (0:ℚ)) := by
      show (List.replicate 16 (-((1:ℚ)/125), (0:ℚ), (0:ℚ))).getD _ _ = _
      exact getD_replicate _ _ (by norm_num [PARTICLES])
    rw [hbase, hdraw]
  have hRcolor : (recordOfParticle cModel cInputs (cInputs.length - 1) (PARTICLES - 1 - 0)).color =
      tweak_color ⟨1/4, 1/2, 1/2, 1/2⟩ (1/125) 0 0 := by
    show tweak_color (cModel.colors.getD (PARTICLES - 1 - 0) default) _ _ _ = _
    have hbase : cModel.colors.getD (PARTICLES - 1 - 0) default =
        (⟨1/4, 1/2, 1/2, 1/2⟩ : Hsla) := by
      show (List.replicate 16 (⟨1/4, 1/2, 1/2, 1/2⟩ : Hsla)).getD _ _ = _
      exact getD_replicate _ _ (by norm_num [PARTICLES])
    have hdraw : ((cInputs.getD (cInputs.length - 1 - 1) default).2).getD
        (PARTICLES - 1 - 0) (0, 0, 0) = ((1:ℚ)/125, (0:ℚ), (0:ℚ)) := by
      show (List.replicate 16 ((1:ℚ)/125, (0:ℚ), (0:ℚ))).getD _ _ = _
      exact getD_replicate _ _ (by norm_num [PARTICLES])
    rw [hbase, hdraw]
  rw [hLcolor, hRcolor]
  intro heq
  have hhue := congrArg Hsla.hue heq
  have e1 : (tweak_color ⟨1/4, 1/2, 1/2, 1/2⟩ (-(1/125)) 0 0).hue = 1/4 + -(1/125) :=
    tweak_hue_of_small _ _ _ _ (by norm_num) (by norm_num) (by norm_num [MAG])
      (by norm_num [MAG])
  have e2 : (tweak_color ⟨1/4, 1/2, 1/2, 1/2⟩ (1/125) 0 0).hue = 1/4 + 1/125 :=
    tweak_hue_of_small _ _ _ _ (by norm_num) (by norm_num) (by norm_num [MAG])
      (by norm_num [MAG])
  have e3 : (tweak_color (tweak_color ⟨1/4, 1/2, 1/2, 1/2⟩ (1/125) 0 0) (-(1/125)) 0 0).hue =
      (1/4 + 1/125) + -(1/125) := by
    rw [tweak_hue_of_small _ _ _ _ (by rw [e2]; norm_num) (by rw [e2]; norm_num)
      (by norm_num [MAG]) (by norm_num [MAG]), e2]
  rw [e1, e3] at hhue
  norm_num at hhue

/-- Claim C2 counterexample: starting from hue 0, a legal negative draw of
-(1/125) produces a NEGATIVE hue: the Rust float remainder keeps the sign of
the dividend, so the result lands outside [0, 1). -/
theorem tweak_hue_can_be_negative :
    (-MAG ≤ -(1/125 : ℚ) ∧ -(1/125 : ℚ) ≤ MAG) ∧
    (tweak_color ⟨0, 1/2, 1/2, 1/2⟩ (-(1/125)) 0 0).hue < 0 := by
  refine ⟨⟨by norm_num [MAG], by norm_num [MAG]⟩, ?_⟩
  rw [tweak_hue_of_small _ _ _ _ (by norm_num) (by norm_num) (by norm_num [MAG])
    (by norm_num [MAG])]
  norm_num

/-- Claim C2 (amended): for every input color and every hue draw within
magnitude, the tweaked hue lies in the open interval (-1, 1) and differs from
inputHue + draw by an integer, so it denotes the same circular hue; it is not
always wrapped into [0, 1), because the Rust remainder is truncated, not
Euclidean. -/
theorem tweak_hue_wrapped_range (c : Hsla) (rh rs rl : ℚ)
    (h1 : -MAG ≤ rh) (h2 : rh ≤ MAG) :
    -1 < (tweak_color c rh rs rl).hue ∧ (tweak_color c rh rs rl).hue < 1 ∧
    ∃ n : ℤ, (tweak_color c rh rs rl).hue = c.hue + rh - n := by
  obtain ⟨hb1, hb2⟩ := normTurns_bounds c.hue
  have hM : MAG = 8/1000 := rfl
  rw [hM] at h1 h2
  have hlo : -1 < normTurns c.hue + rh := by linarith
  have hhi : normTurns c.hue + rh < 1 := by linarith
  have heq : (tweak_color c rh rs rl).hue = normTurns c.hue + rh := by
    show rustRem (normTurns c.hue + rh) 1 = _
    exact rustRem_one hlo hhi
  refine ⟨by rw [heq]; exact hlo, by rw [heq]; exact hhi, ⟨Int.floor (c.hue + 1/2), ?_⟩⟩
  rw [heq]
  unfold normTurns
  ring

/-- Claim C2 (amended) witness: hue 999/1000 pushed up by 1/125. -/
theorem tweak_hue_wrapped_range_witness :
    -1 < (tweak_color ⟨999/1000, 1/2, 1/2, 1/2⟩ (1/125) 0 0).hue ∧
    (tweak_color ⟨999/1000, 1/2, 1/2, 1/2⟩ (1/125) 0 0).hue < 1 ∧
    ∃ n : ℤ, (tweak_color ⟨999/1000, 1/2, 1/2, 1/2⟩ (1/125) 0 0).hue =
      999/1000 + 1/125 - n :=
  tweak_hue_wrapped_range ⟨999/1000, 1/2, 1/2, 1/2⟩ (1/125) 0 0
    (by norm_num [MAG]) (by norm_num [MAG])

/-- The pair windows of a range list are the adjacent index pairs. -/
theorem tupleWindows_range (n : ℕ) :
    tupleWindows (List.range n) = (List.range (n - 1)).map fun a => (a, a + 1) := by
  cases n with
  | zero => rfl
  | succ m =>
    apply List.ext_getElem
    · simp only [tupleWindows, List.length_zip, List.length_tail, List.length_range,
        List.length_map, Nat.succ_sub_one]
      omega
    · intro i h1 h2
      simp only [tupleWindows] at h1 ⊢
      rw [List.getElem_zip, List.getElem_tail, List.getElem_map]
      simp [List.getElem_range]

/-- flatMap after map composes the functions. -/
theorem flatMap_map_compose {α β γ : Type} (f : α → β) (g : β → List γ) :
    ∀ l : List α, (l.map f).flatMap g = l.flatMap fun x => g (f x) := by
  intro l
  induction l with
  | nil => rfl
  | cons a l ih => simp only [List.map_cons, List.flatMap_cons, ih]

/-- Length of a flatMap whose pieces all have the same length. -/
theorem length_flatMap_const {α β : Type} (c : ℕ) (f : α → List β) :
    ∀ l : List α, (∀ a ∈ l, (f a).length = c) → (l.flatMap f).length = l.length * c := by
  intro l
  induction l with
  | nil => intro _; simp
  | cons a l ih =>
    intro h
    rw [List.flatMap_cons, List.length_append, h a (List.mem_cons_self a l),
      ih fun b hb => h b (List.mem_cons_of_mem a hb)]
    simp only [List.length_cons]
    ring

/-- Claim C5: the emitted index list consists, for every adjacent slot pair
(a, a+1) with a up to p-2 (an open strip) and every adjacent epoch pair
(past, past+1), of the two triangles (past,a),(past+1,a),(past+1,a+1) and
(past,a),(past+1,a+1),(past,a+1) under the flattening epoch * p + slot; the
list length is (p-1) * (e-1) * 6, and in particular 12 for p = 3, e = 2. -/
theorem ribbon_index_list :
    (∀ p e : ℕ, drawIdxsP p e = specIdxs p e ∧
      (drawIdxsP p e).length = (p - 1) * (e - 1) * 6) ∧
    (drawIdxsP 3 2).length = 12 := by
  have heq : ∀ p e : ℕ, drawIdxsP p e = specIdxs p e := by
    intro p e
    unfold drawIdxsP specIdxs
    rw [tupleWindows_range, tupleWindows_range, flatMap_map_compose]
    simp only [flatMap_map_compose]
  have hlen : ∀ p e : ℕ, (specIdxs p e).length = (p - 1) * (e - 1) * 6 := by
    intro p e
    unfold specIdxs
    rw [length_flatMap_const ((e - 1) * 6) _ (List.range (p - 1))
      (fun a _ => by
        rw [length_flatMap_const 6
          (fun past => [past * p + a, (past + 1) * p + a, (past + 1) * p + (a + 1),
            past * p + a, (past + 1) * p + (a + 1), past * p + (a + 1)])
          (List.range (e - 1)) fun b _ => rfl,
          List.length_range])]
    rw [List.length_range]
    ring
  exact ⟨fun p e => ⟨heq p e, by rw [heq p e, hlen p e]⟩, rfl⟩

/-- Claim C6: on an empty history, draw_history returns early: it does not
panic, draws nothing, and submits zero vertices and zero indices. -/
theorem draw_history_empty :
    draw_history [] = DrawResult.noDraw ∧
    (draw_history []).vertsOf = [] ∧ (draw_history []).idxsOf = [] ∧
    draw_history [] ≠ DrawResult.panic := by
  refine ⟨rfl, rfl, rfl, ?_⟩
  intro h
  exact DrawResult.noConfusion h

end Trynannou
